import Mathlib

/-!
Shallow embedding of the RadixSpline repository (Rust), file src/radix_spline.rs
and src/spline_corridor.rs, over Nat.  Machine u64/usize arithmetic is modelled
with explicit wrapping modulo 2^64 (release-mode Rust semantics) where overflow
can matter; Nat truncated subtraction coincides with `saturating_sub`.  The f64
slope comparison of `Line::get_direction` is modelled by the exact rational
comparison via integer cross-multiplication; for every concrete input used in a
theorem below, the compared quotients are far enough apart (relative gaps of at
least 1/8 against f64 relative rounding error of about 2^-53) that the f64
ordering agrees with the exact one.
-/

namespace RS

def W64 : Nat := 18446744073709551616

/-- Wrapping (release-mode) u64/usize subtraction, for arguments below 2^64. -/
def wsub (a b : Nat) : Nat := (a + W64 - b) % W64

/-- Wrapping (release-mode) u64/usize addition. -/
def wadd (a b : Nat) : Nat := (a + b) % W64

/-- common.rs: `Point { key: u64, position: usize }`. -/
structure Point where
  key : Nat
  position : Nat
deriving DecidableEq, Repr

/-- common.rs: `Direction`. -/
inductive Direction where
  | left
  | right
  | coincide
deriving DecidableEq, Repr

/-- common.rs: `Line::get_direction` for the two lines (s1,e1) and (s2,e2).
The source compares the f64 quotients dy1/dx1 and dy2/dx2 with dx1, dx2 > 0
(asserted); for positive dx this equals the integer cross-product comparison
used here (modulo f64 rounding, see the file comment). -/
def getDirection (s1 e1 s2 e2 : Point) : Direction :=
  let dy1 : Int := (e1.position : Int) - (s1.position : Int)
  let dx1 : Int := (e1.key : Int) - (s1.key : Int)
  let dy2 : Int := (e2.position : Int) - (s2.position : Int)
  let dx2 : Int := (e2.key : Int) - (s2.key : Int)
  if dy1 * dx2 = dy2 * dx1 then Direction.coincide
  else if dy1 * dx2 > dy2 * dx1 then Direction.left
  else Direction.right

/-- common.rs: `Line::is_left`. -/
def isLeft (s1 e1 s2 e2 : Point) : Bool :=
  getDirection s1 e1 s2 e2 == Direction.left

/-- common.rs: `Line::is_right`. -/
def isRight (s1 e1 s2 e2 : Point) : Bool :=
  getDirection s1 e1 s2 e2 == Direction.right

/-- Number of binary digits of n, fuel-driven (structural, kernel-reducible).
For n < 2^64 and fuel 64 this is the bit length, so 64 - bitLenGo n 64 is
`u64::leading_zeros(n)`. -/
def bitLenGo : Nat → Nat → Nat
  | _, 0 => 0
  | n, fuel + 1 => if n = 0 then 0 else bitLenGo (n / 2) fuel + 1

/-- radix_spline.rs: `get_num_shift_bits(diff, num_radix_bits)`. -/
def getNumShiftBits (diff : Nat) (numRadixBits : Nat) : Nat :=
  let zeros := 64 - bitLenGo diff 64
  if 64 - zeros < numRadixBits then 0 else 64 - numRadixBits - zeros

/-- Write v into slots lo..hi (inclusive) of t, where j is the index of the
head of t.  Models the Rust loop `for i in lo..=hi { table[i] = v; }`. -/
def setRangeGo (t : List Nat) (j lo hi v : Nat) : List Nat :=
  match t with
  | [] => []
  | x :: rest => (if lo ≤ j ∧ j ≤ hi then v else x) :: setRangeGo rest (j + 1) lo hi v

def setRange (t : List Nat) (lo hi v : Nat) : List Nat := setRangeGo t 0 lo hi v

/-- radix_spline.rs: `RadixSpline::build_table`.  Walks the data slice `vals`,
filling table slots (last_prefix, curr_prefix] with the index in `points` of
the spline point covering the value; returns the table and final prefix. -/
def buildTableGo (vals : List Nat) (t : List Nat) (minKey pointKey pointsSize shift lastPfx : Nat) :
    List Nat × Nat :=
  match vals with
  | [] => (t, lastPfx)
  | v :: rest =>
    let currPfx := (v - minKey) >>> shift
    let pos := if v = pointKey then pointsSize - 1 else pointsSize - 2
    buildTableGo rest (setRange t (lastPfx + 1) currPfx pos) minKey pointKey pointsSize shift currPfx

/-- The Rust sub-slice `data[a..b]` (for a ≤ b ≤ data.length, the only way the
source uses it). -/
def slice (data : List Nat) (a b : Nat) : List Nat :=
  (List.range' a (b - a)).map (fun j => data.getD j 0)

/-- Mutable state of the fused build loop in radix_spline.rs `RadixSpline::build`. -/
structure BuildAcc where
  points : List Point
  table : List Nat
  cBase : Point
  upper : Point
  lower : Point
  lastIndex : Nat
  lastPfx : Nat
deriving Repr

/-- One iteration of the `for (i, &key) in data[2..].iter().enumerate()` loop of
`RadixSpline::build` (with i already offset by 2). -/
def buildStep (data : List Nat) (minKey shift maxError : Nat) (acc : BuildAcc) (i : Nat) :
    BuildAcc :=
  let key := data.getD i 0
  let c : Point := ⟨key, i⟩
  if acc.cBase.key = c.key ∨ acc.cBase.key = acc.upper.key ∨ acc.cBase.key = acc.lower.key then
    { acc with upper := ⟨key, i + maxError⟩, lower := ⟨key, i - maxError⟩ }
  else if isLeft acc.cBase c acc.cBase acc.upper || isRight acc.cBase c acc.cBase acc.lower then
    let nb : Point := ⟨data.getD (i - 1) 0, i - 1⟩
    let pts := acc.points ++ [nb]
    let r := buildTableGo (slice data acc.lastIndex i) acc.table minKey nb.key pts.length shift acc.lastPfx
    { points := pts, table := r.1, cBase := nb,
      upper := ⟨key, i + maxError⟩, lower := ⟨key, i - maxError⟩,
      lastIndex := i, lastPfx := r.2 }
  else
    let u : Point := ⟨key, i + maxError⟩
    let l : Point := ⟨key, i - maxError⟩
    { acc with
      upper := if isLeft acc.cBase acc.upper acc.cBase u then u else acc.upper,
      lower := if isRight acc.cBase acc.lower acc.cBase l then l else acc.lower }

/-- State before the loop of `RadixSpline::build`. -/
def buildInit (data : List Nat) (tableLen maxError : Nat) : BuildAcc :=
  { points := [⟨data.getD 0 0, 0⟩],
    table := List.replicate tableLen 0,
    cBase := ⟨data.getD 0 0, 0⟩,
    upper := ⟨data.getD 1 0, 1 + maxError⟩,
    lower := ⟨data.getD 1 0, 1 - maxError⟩,
    lastIndex := 1,
    lastPfx := 0 }

def buildLoop (data : List Nat) (minKey shift maxError tableLen : Nat) : BuildAcc :=
  (List.range' 2 (data.length - 2)).foldl (buildStep data minKey shift maxError)
    (buildInit data tableLen maxError)

/-- Tail of `RadixSpline::build`: push the terminal spline point and run
`build_table` over the final segment. -/
def buildFinish (data : List Nat) (minKey shift : Nat) (acc : BuildAcc) : List Point × List Nat :=
  let n := data.length
  let lastPt : Point := ⟨data.getD (n - 1) 0, n - 1⟩
  let pts := acc.points ++ [lastPt]
  let r := buildTableGo (slice data acc.lastIndex n) acc.table minKey lastPt.key pts.length shift acc.lastPfx
  (pts, r.1)

/-- radix_spline.rs: the `RadixSpline` struct. -/
structure RadixSpline where
  data : List Nat
  minKey : Nat
  shiftRadixBits : Nat
  maxError : Nat
  points : List Point
  table : List Nat
deriving Repr

/-- The body of `RadixSpline::new` after its length assertion. -/
def mkIndex (data : List Nat) (numRadixBits maxError : Nat) : RadixSpline :=
  let minKey := data.getD 0 0
  let maxKey := data.getD (data.length - 1) 0
  let shift := getNumShiftBits (maxKey - minKey) numRadixBits
  let maxPfx := (maxKey - minKey) >>> shift
  let acc := buildLoop data minKey shift maxError (maxPfx + 2)
  let r := buildFinish data minKey shift acc
  { data := data, minKey := minKey, shiftRadixBits := shift, maxError := maxError,
    points := r.1, table := r.2 }

/-- radix_spline.rs: `RadixSpline::new`.  The source asserts `data.len() >= 3`
(a failed assertion aborts construction, modelled as `none`); nothing else is
checked. -/
def RadixSpline.new (data : List Nat) (numRadixBits maxError : Nat) : Option RadixSpline :=
  if data.length < 3 then none else some (mkIndex data numRadixBits maxError)

/-- The predicted position computed inside `RadixSpline::search`:
`start.position + (key - start.key) * (end.position - start.position)
/ (end.key - start.key)`, every operation in plain 64-bit usize arithmetic
(wrapping in release mode; the source performs no widening). -/
def predictedPos (start stop : Point) (key : Nat) : Nat :=
  wadd start.position (wsub key start.key * wsub stop.position start.position % W64 / wsub stop.key start.key)

/-- The same interpolation as the specification prescribes it (section 4.4
step 7): exact integer arithmetic with a widening multiplication, modelled by
unbounded Nat (identical to 128-bit arithmetic for all u64 inputs). -/
def specPredicted (start stop : Point) (key : Nat) : Nat :=
  start.position + (key - start.key) * (stop.position - start.position) / (stop.key - start.key)

/-- Result of a `search` call; `fail` models a Rust panic (out-of-bounds index
or slice, or an arithmetic abort). -/
inductive SearchResult where
  | found : Nat → SearchResult
  | notFound : SearchResult
  | fail : SearchResult
deriving DecidableEq, Repr

/-- Core loop of Rust `slice::binary_search` (the exact stdlib algorithm,
fuel-driven; fuel `len + 1` always suffices since the interval shrinks). -/
def binSearchGo (xs : List Nat) (key : Nat) : Nat → Nat → Nat → Nat → Option Nat
  | _, _, _, 0 => none
  | left, right, size, fuel + 1 =>
    if left < right then
      let mid := left + size / 2
      let x := xs.getD mid 0
      if x < key then binSearchGo xs key (mid + 1) right (right - (mid + 1)) fuel
      else if key < x then binSearchGo xs key left mid (mid - left) fuel
      else some mid
    else none

def binSearch (xs : List Nat) (key : Nat) : Option Nat :=
  binSearchGo xs key 0 xs.length xs.length (xs.length + 1)

/-- radix_spline.rs: `RadixSpline::search`.  Every Rust indexing/slicing step
that can panic is modelled explicitly: out of bounds gives `SearchResult.fail`. -/
def RadixSpline.search (rs : RadixSpline) (key : Nat) : SearchResult :=
  let cPfx := wsub key rs.minKey >>> rs.shiftRadixBits
  if cPfx < rs.table.length then
    let ti := rs.table.getD cPfx 0
    if ti < rs.points.length then
      let start := rs.points.getD ti ⟨0, 0⟩
      if start.key = key then SearchResult.found start.position
      else if ti + 1 < rs.points.length then
        let stop := rs.points.getD (ti + 1) ⟨0, 0⟩
        let predicted := predictedPos start stop key
        let lo := predicted - rs.maxError
        let hiCand := wadd predicted rs.maxError
        let hi := if rs.data.length - 1 < hiCand then rs.data.length - 1 else hiCand
        if lo ≤ hi + 1 ∧ hi < rs.data.length then
          match binSearch (slice rs.data lo (hi + 1)) key with
          | some p => SearchResult.found (p + lo)
          | none => SearchResult.notFound
        else SearchResult.fail
      else SearchResult.fail
    else SearchResult.fail
  else SearchResult.fail

/-- `RadixSpline::new` followed by `search`; a failed construction is `fail`. -/
def searchIn (data : List Nat) (numRadixBits maxError key : Nat) : SearchResult :=
  match RadixSpline.new data numRadixBits maxError with
  | some rs => rs.search key
  | none => SearchResult.fail

/-- Mutable state of the loop of spline_corridor.rs
`GreedySplineCorridor::spline_points`. -/
structure CorridorAcc where
  points : List Point
  base : Point
  upper : Point
  lower : Point
deriving Repr

/-- One iteration of the loop of `GreedySplineCorridor::spline_points`. -/
def corridorStep (data : List Nat) (maxError : Nat) (acc : CorridorAcc) (i : Nat) : CorridorAcc :=
  let key := data.getD i 0
  let c : Point := ⟨key, i⟩
  if acc.base.key = c.key ∨ acc.base.key = acc.upper.key ∨ acc.base.key = acc.lower.key then
    { acc with upper := ⟨key, i + maxError⟩, lower := ⟨key, i - maxError⟩ }
  else if isLeft acc.base c acc.base acc.upper || isRight acc.base c acc.base acc.lower then
    let nb : Point := ⟨data.getD (i - 1) 0, i - 1⟩
    { points := acc.points ++ [nb], base := nb,
      upper := ⟨key, i + maxError⟩, lower := ⟨key, i - maxError⟩ }
  else
    let u : Point := ⟨key, i + maxError⟩
    let l : Point := ⟨key, i - maxError⟩
    { acc with
      upper := if isLeft acc.base acc.upper acc.base u then u else acc.upper,
      lower := if isRight acc.base acc.lower acc.base l then l else acc.lower }

/-- spline_corridor.rs: `GreedySplineCorridor::spline_points` (its
`assert!(data.len() > 3)` holds for every input used below). -/
def splinePoints (data : List Nat) (maxError : Nat) : List Point :=
  let acc0 : CorridorAcc :=
    { points := [⟨data.getD 0 0, 0⟩], base := ⟨data.getD 0 0, 0⟩,
      upper := ⟨data.getD 1 0, 1 + maxError⟩, lower := ⟨data.getD 1 0, 1 - maxError⟩ }
  let acc := (List.range' 2 (data.length - 2)).foldl (corridorStep data maxError) acc0
  acc.points ++ [⟨data.getD (data.length - 1) 0, data.length - 1⟩]

/-- Test vector of spline_corridor.rs `spline_points` (also spec section 8,
scenario P8, first list). -/
def dataP8a : List Nat := [3, 4, 8, 10, 19, 20]

/-- Test vector of spline_corridor.rs `spline_repeated_points` (spec P8,
second list). -/
def dataP8b : List Nat := [3, 4, 8, 8, 10, 10, 19, 20]

/-- A valid sorted u64 input whose interpolation product overflows 64 bits:
[0, 2^62, 2^63, 3*2^62, 2^64 - 1]. -/
def dataOverflow : List Nat :=
  [0, 4611686018427387904, 9223372036854775808, 13835058055282163712, 18446744073709551615]

/-- A valid sorted input whose maximum key is duplicated behind a corridor
violation. -/
def dataDupMax : List Nat := [0, 1, 2, 2, 2, 2]

/-- A valid sorted input with a large key gap before the last key. -/
def dataGap : List Nat := [0, 1, 2, 3, 100]

/-- Reading slot j of the radix table (0 when out of range, matching the
all-zero initial contents). -/

def tget (t : List Nat) (j : Nat) : Nat := t.getD j 0

/-- Invariant of the spline-point list along the build loop: the head is the
initial point, the last point is the current base, emitted positions grow
strictly, every point's key is the datum at its position, and the base was
emitted at least two steps before the current loop index i. -/
structure PtsInv (data : List Nat) (i : Nat) (acc : BuildAcc) : Prop where
  head : acc.points.head? = some ⟨data.getD 0 0, 0⟩
  last : acc.points.getLast? = some acc.cBase
  basePos : acc.cBase.position + 2 ≤ i
  mem : ∀ q ∈ acc.points, q.key = data.getD q.position 0 ∧ q.position ≤ acc.cBase.position
  chain : acc.points.Chain' (fun a b => a.position < b.position)

/-- Invariant of the radix table between `build_table` calls: slots up to
lastPfx are non-decreasing and bounded by `bound`; slots above lastPfx still
hold their initial 0. -/
structure TblInv (t : List Nat) (lastPfx bound : Nat) : Prop where
  mono : ∀ a b, a ≤ b → b ≤ lastPfx → tget t a ≤ tget t b
  bnd : ∀ a, a ≤ lastPfx → tget t a ≤ bound
  tail : ∀ a, lastPfx < a → tget t a = 0

/-- Loop-level invariant of the fused build for the radix table. -/
structure TInv (data : List Nat) (minKey shift tlen : Nat) (i : Nat) (acc : BuildAcc) : Prop where
  li1 : 1 ≤ acc.lastIndex
  li2 : acc.lastIndex + 1 ≤ i
  lp : acc.lastPfx = (data.getD (acc.lastIndex - 1) 0 - minKey) >>> shift
  tlenEq : acc.table.length = tlen
  pts1 : 1 ≤ acc.points.length
  tbl : TblInv acc.table acc.lastPfx (acc.points.length - 1)

/-! ## Arithmetic helper lemmas -/

theorem wsub_of_le {a b : Nat} (h : b ≤ a) (ha : a < W64) : wsub a b = a - b := by
  simp only [wsub, W64] at *
  omega

theorem wadd_of_lt {a b : Nat} (h : a + b < W64) : wadd a b = a + b := by
  simp only [wadd, W64] at *
  omega

theorem pfx_mono (minKey shift : Nat) {v w : Nat} (h : v ≤ w) :
    (v - minKey) >>> shift ≤ (w - minKey) >>> shift := by
  simp only [Nat.shiftRight_eq_div_pow]
  exact Nat.div_le_div_right (by omega)

theorem pairwise_getD_mono (data : List Nat) (hs : data.Pairwise (· ≤ ·)) {a b : Nat}
    (hab : a ≤ b) (hb : b < data.length) : data.getD a 0 ≤ data.getD b 0 := by
  rcases Nat.eq_or_lt_of_le hab with h | h
  · subst h; exact le_refl _
  · have ha : a < data.length := lt_trans h hb
    rw [List.getD_eq_getElem data 0 ha, List.getD_eq_getElem data 0 hb]
    exact List.pairwise_iff_getElem.mp hs a b ha hb h

/-! ## Spline-point list invariants -/

theorem buildStep_ptsInv (data : List Nat) (minKey shift maxError : Nat) (i : Nat) (hi : 2 ≤ i)
    (acc : BuildAcc) (h : PtsInv data i acc) :
    PtsInv data (i + 1) (buildStep data minKey shift maxError acc i) := by
  obtain ⟨hhead, hlast, hbase, hmem, hchain⟩ := h
  unfold buildStep
  dsimp only
  split
  · exact ⟨hhead, hlast, show acc.cBase.position + 2 ≤ i + 1 by omega, hmem, hchain⟩
  · split
    · -- corridor violated: the previous datum is emitted as a spline point
      refine ⟨?_, ?_, show i - 1 + 2 ≤ i + 1 by omega, ?_, ?_⟩
      · cases hp : acc.points with
        | nil => rw [hp] at hhead; simp at hhead
        | cons a t =>
          rw [hp] at hhead
          simpa using hhead
      · exact List.getLast?_concat _
      · intro q hq
        rcases List.mem_append.mp hq with hq | hq
        · obtain ⟨hk, hp⟩ := hmem q hq
          exact ⟨hk, show q.position ≤ i - 1 by omega⟩
        · rcases List.mem_singleton.mp hq with rfl
          exact ⟨rfl, le_refl _⟩
      · refine List.chain'_append.mpr ⟨hchain, List.chain'_singleton _, ?_⟩
        intro x hx y hy
        rw [hlast] at hx
        rcases Option.mem_some_iff.mp hx with rfl
        simp only [List.head?_cons, Option.mem_some_iff] at hy
        rcases hy with rfl
        show acc.cBase.position < i - 1
        omega
    · exact ⟨hhead, hlast, show acc.cBase.position + 2 ≤ i + 1 by omega, hmem, hchain⟩

theorem foldl_buildStep_ptsInv (data : List Nat) (minKey shift maxError : Nat) :
    ∀ (k i : Nat) (acc : BuildAcc), 2 ≤ i → PtsInv data i acc →
      PtsInv data (i + k)
        ((List.range' i k).foldl (buildStep data minKey shift maxError) acc) := by
  intro k
  induction k with
  | zero => intro i acc _ h; simpa using h
  | succ k ih =>
    intro i acc hi h
    have h1 := buildStep_ptsInv data minKey shift maxError i hi acc h
    have h2 := ih (i + 1) (buildStep data minKey shift maxError acc i) (by omega) h1
    have heq : i + (k + 1) = (i + 1) + k := by omega
    rw [heq]
    exact h2

theorem ptsInv_init (data : List Nat) (tableLen maxError : Nat) :
    PtsInv data 2 (buildInit data tableLen maxError) := by
  refine ⟨rfl, ?_, by simp [buildInit], ?_, ?_⟩
  · simp [buildInit]
  · intro q hq
    simp only [buildInit, List.mem_singleton] at hq
    subst hq
    exact ⟨rfl, le_refl _⟩
  · simp [buildInit]

theorem buildFinish_points_spec (data : List Nat) (minKey shift : Nat) (acc : BuildAcc)
    (h3 : 3 ≤ data.length) (h : PtsInv data data.length acc) :
    (buildFinish data minKey shift acc).1.head? = some ⟨data.getD 0 0, 0⟩ ∧
    (buildFinish data minKey shift acc).1.getLast? =
      some ⟨data.getD (data.length - 1) 0, data.length - 1⟩ ∧
    (∀ q ∈ (buildFinish data minKey shift acc).1,
      q.key = data.getD q.position 0 ∧ q.position ≤ data.length - 1) ∧
    (buildFinish data minKey shift acc).1.Chain' (fun a b => a.position < b.position) := by
  obtain ⟨hhead, hlast, hbase, hmem, hchain⟩ := h
  unfold buildFinish
  dsimp only
  refine ⟨?_, List.getLast?_concat _, ?_, ?_⟩
  · cases hp : acc.points with
    | nil => rw [hp] at hhead; simp at hhead
    | cons a t =>
      rw [hp] at hhead
      simpa using hhead
  · intro q hq
    rcases List.mem_append.mp hq with hq | hq
    · obtain ⟨hk, hp⟩ := hmem q hq
      exact ⟨hk, by omega⟩
    · rcases List.mem_singleton.mp hq with rfl
      exact ⟨rfl, le_refl _⟩
  · refine List.chain'_append.mpr ⟨hchain, List.chain'_singleton _, ?_⟩
    intro x hx y hy
    rw [hlast] at hx
    rcases Option.mem_some_iff.mp hx with rfl
    simp only [List.head?_cons, Option.mem_some_iff] at hy
    rcases hy with rfl
    show acc.cBase.position < data.length - 1
    omega

theorem chain'_key_of_pos (data : List Nat) (hs : data.Pairwise (· ≤ ·)) :
    ∀ (l : List Point), (∀ q ∈ l, q.key = data.getD q.position 0 ∧ q.position < data.length) →
      l.Chain' (fun a b => a.position < b.position) → l.Chain' (fun a b => a.key ≤ b.key) := by
  intro l
  induction l with
  | nil => intro _ _; exact List.chain'_nil
  | cons a t ih =>
    intro hmem hch
    rw [List.chain'_cons'] at hch ⊢
    obtain ⟨hhd, htl⟩ := hch
    refine ⟨?_, ih (fun q hq => hmem q (List.mem_cons_of_mem a hq)) htl⟩
    intro y hy
    have hya := hhd y hy
    have hy' : y ∈ t := List.mem_of_mem_head? hy
    have h1 := hmem a (List.mem_cons_self a t)
    have h2 := hmem y (List.mem_cons_of_mem a hy')
    rw [h1.1, h2.1]
    exact pairwise_getD_mono data hs (le_of_lt hya) h2.2

/-! ## Radix-table invariants -/

theorem length_setRangeGo (lo hi v : Nat) :
    ∀ (t : List Nat) (j : Nat), (setRangeGo t j lo hi v).length = t.length := by
  intro t
  induction t with
  | nil => intro j; rfl
  | cons x rest ih => intro j; simp [setRangeGo, ih]

theorem tget_setRangeGo (lo hi v : Nat) :
    ∀ (t : List Nat) (j a : Nat),
      tget (setRangeGo t j lo hi v) a =
        if lo ≤ j + a ∧ j + a ≤ hi ∧ a < t.length then v else tget t a := by
  intro t
  induction t with
  | nil =>
    intro j a
    simp [setRangeGo, tget]
  | cons x rest ih =>
    intro j a
    cases a with
    | zero =>
      simp only [setRangeGo, tget, List.getD_cons_zero, List.length_cons]
      split
      · split
        · rfl
        · omega
      · split
        · omega
        · rfl
    | succ a =>
      simp only [setRangeGo, tget, List.getD_cons_succ, List.length_cons]
      have := ih (j + 1) a
      simp only [tget] at this
      rw [this]
      have hcond : (lo ≤ j + 1 + a ∧ j + 1 + a ≤ hi ∧ a < rest.length) ↔
          (lo ≤ j + (a + 1) ∧ j + (a + 1) ≤ hi ∧ a + 1 < rest.length + 1) := by omega
      split
      · split
        · rfl
        · omega
      · split
        · omega
        · rfl

theorem tget_setRange (t : List Nat) (lo hi v a : Nat) :
    tget (setRange t lo hi v) a = if lo ≤ a ∧ a ≤ hi ∧ a < t.length then v else tget t a := by
  have := tget_setRangeGo lo hi v t 0 a
  simpa using this

theorem length_setRange (t : List Nat) (lo hi v : Nat) :
    (setRange t lo hi v).length = t.length :=
  length_setRangeGo lo hi v t 0

theorem buildTableGo_fst_length (minKey pointKey pointsSize shift : Nat) :
    ∀ (vals t : List Nat) (lastPfx : Nat),
      (buildTableGo vals t minKey pointKey pointsSize shift lastPfx).1.length = t.length := by
  intro vals
  induction vals with
  | nil => intro t lastPfx; rfl
  | cons v rest ih =>
    intro t lastPfx
    simp only [buildTableGo]
    rw [ih, length_setRange]

theorem buildTableGo_snd (minKey pointKey pointsSize shift : Nat) :
    ∀ (vals t : List Nat) (lastPfx : Nat),
      (buildTableGo vals t minKey pointKey pointsSize shift lastPfx).2 =
        vals.getLast?.elim lastPfx (fun v => (v - minKey) >>> shift) := by
  intro vals
  induction vals with
  | nil => intro t lastPfx; rfl
  | cons v rest ih =>
    intro t lastPfx
    have hstep : (buildTableGo (v :: rest) t minKey pointKey pointsSize shift lastPfx).2 =
        (buildTableGo rest (setRange t (lastPfx + 1) ((v - minKey) >>> shift)
          (if v = pointKey then pointsSize - 1 else pointsSize - 2))
          minKey pointKey pointsSize shift ((v - minKey) >>> shift)).2 := rfl
    rw [hstep, ih]
    cases rest with
    | nil => rfl
    | cons w rest' =>
      rw [List.getLast?_cons_cons]
      rcases h : (w :: rest').getLast? with _ | z
      · simp at h
      · rfl

/-! ## Helpers about lists of consecutive indices -/

theorem mem_range'_map {g : Nat → Nat} {y a k : Nat} :
    y ∈ (List.range' a k).map g ↔ ∃ j, a ≤ j ∧ j < a + k ∧ y = g j := by
  simp only [List.mem_map, List.mem_range'_1]
  constructor
  · rintro ⟨j, ⟨h1, h2⟩, rfl⟩
    exact ⟨j, h1, h2, rfl⟩
  · rintro ⟨j, h1, h2, rfl⟩
    exact ⟨j, ⟨h1, h2⟩, rfl⟩

theorem chain'_le_cons_range'_map (g : Nat → Nat) :
    ∀ (k x a : Nat), (0 < k → x ≤ g a) →
      (∀ j, a ≤ j → j + 1 < a + k → g j ≤ g (j + 1)) →
      (x :: (List.range' a k).map g).Chain' (· ≤ ·) := by
  intro k
  induction k with
  | zero => intro x a _ _; simp
  | succ k ih =>
    intro x a hx hadj
    have hrec := ih (g a) (a + 1) (fun hk => hadj a (le_refl a) (by omega))
      (fun j hj hj1 => hadj j (by omega) (by omega))
    rw [show List.range' a (k + 1) = a :: List.range' (a + 1) k from rfl]
    rw [List.map_cons]
    exact List.chain'_cons'.mpr ⟨fun y hy => by
      simp only [List.head?_cons, Option.mem_some_iff] at hy
      rcases hy with rfl
      exact hx (by omega), hrec⟩

theorem pairwise_le_cons_range'_map (h : Nat → Nat) :
    ∀ (k x a : Nat), (∀ j, a ≤ j → j < a + k → x ≤ h j) →
      (∀ j j', a ≤ j → j ≤ j' → j' < a + k → h j ≤ h j') →
      (x :: (List.range' a k).map h).Pairwise (· ≤ ·) := by
  intro k
  induction k with
  | zero => intro x a _ _; simp
  | succ k ih =>
    intro x a hx hmono
    have hrec := ih (h a) (a + 1) (fun j hj hj' => hmono a j (le_refl a) (by omega) (by omega))
      (fun j j' hj hjj hj' => hmono j j' (by omega) hjj (by omega))
    rw [show List.range' a (k + 1) = a :: List.range' (a + 1) k from rfl]
    rw [List.map_cons]
    refine List.pairwise_cons.mpr ⟨?_, hrec⟩
    intro y hy
    rcases List.mem_cons.mp hy with rfl | hy
    · exact hx a (le_refl a) (by omega)
    · rcases mem_range'_map.mp hy with ⟨j, hj1, hj2, rfl⟩
      exact hx j (by omega) (by omega)

theorem getLast?_range'_map (g : Nat → Nat) (k a : Nat) (hk : 0 < k) :
    ((List.range' a k).map g).getLast? = some (g (a + k - 1)) := by
  obtain ⟨k', rfl⟩ : ∃ k', k = k' + 1 := ⟨k - 1, by omega⟩
  rw [List.range'_concat, List.map_append]
  rw [show (1 : Nat) * k' = k' from by omega]
  rw [show a + (k' + 1) - 1 = a + k' from by omega]
  simp

theorem buildTableGo_inv (minKey pointKey pointsSize shift : Nat) (hps : 2 ≤ pointsSize) :
    ∀ (vals t : List Nat) (lastPfx b : Nat),
      TblInv t lastPfx b →
      (lastPfx :: vals.map (fun v => (v - minKey) >>> shift)).Chain' (· ≤ ·) →
      (b :: vals.map (fun v => if v = pointKey then pointsSize - 1 else pointsSize - 2)).Pairwise (· ≤ ·) →
      (∀ v ∈ vals, (v - minKey) >>> shift < t.length) →
      b ≤ pointsSize - 1 →
      TblInv (buildTableGo vals t minKey pointKey pointsSize shift lastPfx).1
        (buildTableGo vals t minKey pointKey pointsSize shift lastPfx).2 (pointsSize - 1) := by
  intro vals
  induction vals with
  | nil =>
    intro t lastPfx b hinv _ _ _ hb
    exact ⟨hinv.mono, fun a ha => le_trans (hinv.bnd a ha) hb, hinv.tail⟩
  | cons v rest ih =>
    intro t lastPfx b hinv hchain hpw hlen hb
    rw [List.map_cons] at hchain hpw
    have hc1 := List.chain'_cons.mp hchain
    have hp1 := List.pairwise_cons.mp hpw
    have hLC : lastPfx ≤ (v - minKey) >>> shift := hc1.1
    have hbsv : b ≤ (if v = pointKey then pointsSize - 1 else pointsSize - 2) :=
      hp1.1 _ (List.mem_cons_self _ _)
    have hCt : (v - minKey) >>> shift < t.length := hlen v (List.mem_cons_self v rest)
    have htlen' : (setRange t (lastPfx + 1) ((v - minKey) >>> shift)
        (if v = pointKey then pointsSize - 1 else pointsSize - 2)).length = t.length :=
      length_setRange t _ _ _
    have hinv' : TblInv (setRange t (lastPfx + 1) ((v - minKey) >>> shift)
        (if v = pointKey then pointsSize - 1 else pointsSize - 2))
        ((v - minKey) >>> shift)
        (if v = pointKey then pointsSize - 1 else pointsSize - 2) := by
      refine ⟨?_, ?_, ?_⟩
      · intro a b' hab hbC
        rw [tget_setRange, tget_setRange]
        by_cases h1 : lastPfx + 1 ≤ a ∧ a ≤ (v - minKey) >>> shift ∧ a < t.length
        · have hb2 : lastPfx + 1 ≤ b' ∧ b' ≤ (v - minKey) >>> shift ∧ b' < t.length :=
            ⟨by omega, hbC, by omega⟩
          rw [if_pos h1, if_pos hb2]
        · rw [if_neg h1]
          by_cases h2 : lastPfx + 1 ≤ b' ∧ b' ≤ (v - minKey) >>> shift ∧ b' < t.length
          · rw [if_pos h2]
            exact le_trans (hinv.bnd a (by omega)) hbsv
          · rw [if_neg h2]
            exact hinv.mono a b' hab (by omega)
      · intro a haC
        rw [tget_setRange]
        by_cases h1 : lastPfx + 1 ≤ a ∧ a ≤ (v - minKey) >>> shift ∧ a < t.length
        · rw [if_pos h1]
        · rw [if_neg h1]
          exact le_trans (hinv.bnd a (by omega)) hbsv
      · intro a hCa
        rw [tget_setRange]
        rw [if_neg (by omega)]
        exact hinv.tail a (by omega)
    have hrec := ih (setRange t (lastPfx + 1) ((v - minKey) >>> shift)
        (if v = pointKey then pointsSize - 1 else pointsSize - 2))
        ((v - minKey) >>> shift)
        (if v = pointKey then pointsSize - 1 else pointsSize - 2)
        hinv' hc1.2 hp1.2
        (by
          intro w hw
          rw [htlen']
          exact hlen w (List.mem_cons_of_mem v hw))
        (by split <;> omega)
    exact hrec

theorem buildTable_slice_inv (data : List Nat) (minKey shift tlen : Nat)
    (hsort : data.Pairwise (· ≤ ·))
    (hmaxlt : (data.getD (data.length - 1) 0 - minKey) >>> shift < tlen)
    (t : List Nat) (htlen : t.length = tlen)
    (a e ps lastPfx : Nat) (ha : 1 ≤ a) (hae : a ≤ e) (he : e ≤ data.length)
    (he1 : 1 ≤ e) (hps : 2 ≤ ps)
    (hlp : lastPfx = (data.getD (a - 1) 0 - minKey) >>> shift)
    (hinv : TblInv t lastPfx (ps - 2)) :
    TblInv (buildTableGo (slice data a e) t minKey (data.getD (e - 1) 0) ps shift lastPfx).1
      (buildTableGo (slice data a e) t minKey (data.getD (e - 1) 0) ps shift lastPfx).2
      (ps - 1) ∧
    (buildTableGo (slice data a e) t minKey (data.getD (e - 1) 0) ps shift lastPfx).2 =
      (data.getD (e - 1) 0 - minKey) >>> shift := by
  have hgmono : ∀ (j j' : Nat), j ≤ j' → j' < data.length →
      data.getD j 0 ≤ data.getD j' 0 := fun j j' h1 h2 => pairwise_getD_mono data hsort h1 h2
  have hchain : (lastPfx ::
      (slice data a e).map (fun v => (v - minKey) >>> shift)).Chain' (· ≤ ·) := by
    rw [slice, List.map_map]
    apply chain'_le_cons_range'_map
    · intro hk
      rw [hlp]
      exact pfx_mono minKey shift (hgmono (a - 1) a (by omega) (by omega))
    · intro j hj hj1
      exact pfx_mono minKey shift (hgmono j (j + 1) (by omega) (by omega))
  have hpw : ((ps - 2) :: (slice data a e).map
      (fun v => if v = data.getD (e - 1) 0 then ps - 1 else ps - 2)).Pairwise (· ≤ ·) := by
    rw [slice, List.map_map]
    apply pairwise_le_cons_range'_map
    · intro j hj hj'
      show ps - 2 ≤ if data.getD j 0 = data.getD (e - 1) 0 then ps - 1 else ps - 2
      split <;> omega
    · intro j j' hj hjj hj'
      show (if data.getD j 0 = data.getD (e - 1) 0 then ps - 1 else ps - 2) ≤
        (if data.getD j' 0 = data.getD (e - 1) 0 then ps - 1 else ps - 2)
      by_cases hkey' : data.getD j' 0 = data.getD (e - 1) 0
      · rw [if_pos hkey']
        split <;> omega
      · rw [if_neg hkey']
        have hkey : ¬ (data.getD j 0 = data.getD (e - 1) 0) := by
          intro hk
          apply hkey'
          have h1 : data.getD j 0 ≤ data.getD j' 0 := hgmono j j' hjj (by omega)
          have h2 : data.getD j' 0 ≤ data.getD (e - 1) 0 := hgmono j' (e - 1) (by omega) (by omega)
          omega
        rw [if_neg hkey]
  have hlen2 : ∀ v ∈ slice data a e, (v - minKey) >>> shift < t.length := by
    intro v hv
    rw [slice] at hv
    rcases mem_range'_map.mp hv with ⟨j, hj1, hj2, rfl⟩
    rw [htlen]
    exact lt_of_le_of_lt
      (pfx_mono minKey shift (hgmono j (data.length - 1) (by omega) (by omega))) hmaxlt
  constructor
  · exact buildTableGo_inv minKey (data.getD (e - 1) 0) ps shift hps (slice data a e) t
      lastPfx (ps - 2) hinv hchain hpw hlen2 (by omega)
  · rw [buildTableGo_snd]
    rcases Nat.eq_or_lt_of_le hae with heq | hlt
    · subst heq
      rw [slice, show a - a = 0 from by omega]
      exact hlp
    · rw [slice, getLast?_range'_map _ (e - a) a (by omega)]
      rw [show a + (e - a) - 1 = e - 1 from by omega]
      rfl

theorem tInv_init (data : List Nat) (minKey shift maxError tlen : Nat)
    (hmin : minKey = data.getD 0 0) :
    TInv data minKey shift tlen 2 (buildInit data tlen maxError) := by
  have hz : ∀ a, tget (List.replicate tlen (0 : Nat)) a = 0 := by
    intro a
    rcases lt_or_ge a tlen with h | h
    · rw [tget, List.getD_eq_getElem _ _ (by simpa using h), List.getElem_replicate]
    · rw [tget, List.getD_eq_default]
      simpa using h
  refine ⟨le_refl 1, le_refl 2, ?_, ?_, ?_, ?_⟩
  · show (0 : Nat) = (data.getD (1 - 1) 0 - minKey) >>> shift
    rw [hmin]
    simp
  · show (List.replicate tlen (0 : Nat)).length = tlen
    simp
  · show 1 ≤ 1
    exact le_refl 1
  · show TblInv (List.replicate tlen (0 : Nat)) 0 (1 - 1)
    exact ⟨fun a b _ _ => by rw [hz a, hz b], fun a _ => by rw [hz a], fun a _ => hz a⟩

theorem buildStep_tInv (data : List Nat) (minKey shift maxError tlen : Nat)
    (hsort : data.Pairwise (· ≤ ·))
    (hmaxlt : (data.getD (data.length - 1) 0 - minKey) >>> shift < tlen)
    (i : Nat) (hi : 2 ≤ i) (hin : i < data.length)
    (acc : BuildAcc) (h : TInv data minKey shift tlen i acc) :
    TInv data minKey shift tlen (i + 1) (buildStep data minKey shift maxError acc i) := by
  obtain ⟨li1, li2, lp, tlenEq, pts1, tbl⟩ := h
  unfold buildStep
  dsimp only
  split
  · exact ⟨li1, show acc.lastIndex + 1 ≤ i + 1 by omega, lp, tlenEq, pts1, tbl⟩
  · split
    · -- emission branch
      have hps2 : 2 ≤ (acc.points ++ [(⟨data.getD (i - 1) 0, i - 1⟩ : Point)]).length := by
        simp only [List.length_append, List.length_singleton]
        omega
      have htb : TblInv acc.table acc.lastPfx
          ((acc.points ++ [(⟨data.getD (i - 1) 0, i - 1⟩ : Point)]).length - 2) := by
        have hlen1 : (acc.points ++ [(⟨data.getD (i - 1) 0, i - 1⟩ : Point)]).length - 2 =
            acc.points.length - 1 := by simp
        rw [hlen1]
        exact tbl
      have hmain := buildTable_slice_inv data minKey shift tlen hsort hmaxlt acc.table tlenEq
        acc.lastIndex i (acc.points ++ [(⟨data.getD (i - 1) 0, i - 1⟩ : Point)]).length
        acc.lastPfx li1 (by omega) (by omega) (by omega) hps2 lp htb
      refine ⟨?_, ?_, ?_, ?_, ?_, ?_⟩
      · exact show 1 ≤ i by omega
      · exact show i + 1 ≤ i + 1 from le_refl _
      · show (buildTableGo (slice data acc.lastIndex i) acc.table minKey (data.getD (i - 1) 0)
            (acc.points ++ [(⟨data.getD (i - 1) 0, i - 1⟩ : Point)]).length shift acc.lastPfx).2 =
          (data.getD (i - 1) 0 - minKey) >>> shift
        exact hmain.2
      · show (buildTableGo (slice data acc.lastIndex i) acc.table minKey (data.getD (i - 1) 0)
            (acc.points ++ [(⟨data.getD (i - 1) 0, i - 1⟩ : Point)]).length shift acc.lastPfx).1.length = tlen
        rw [buildTableGo_fst_length]
        exact tlenEq
      · show 1 ≤ (acc.points ++ [(⟨data.getD (i - 1) 0, i - 1⟩ : Point)]).length
        simp only [List.length_append, List.length_singleton]
        omega
      · show TblInv _ _ ((acc.points ++ [(⟨data.getD (i - 1) 0, i - 1⟩ : Point)]).length - 1)
        exact hmain.1
    · exact ⟨li1, show acc.lastIndex + 1 ≤ i + 1 by omega, lp, tlenEq, pts1, tbl⟩

theorem foldl_buildStep_tInv (data : List Nat) (minKey shift maxError tlen : Nat)
    (hsort : data.Pairwise (· ≤ ·))
    (hmaxlt : (data.getD (data.length - 1) 0 - minKey) >>> shift < tlen) :
    ∀ (k i : Nat) (acc : BuildAcc), 2 ≤ i → i + k ≤ data.length → TInv data minKey shift tlen i acc →
      TInv data minKey shift tlen (i + k)
        ((List.range' i k).foldl (buildStep data minKey shift maxError) acc) := by
  intro k
  induction k with
  | zero => intro i acc _ _ h; simpa using h
  | succ k ih =>
    intro i acc hi hik h
    have h1 := buildStep_tInv data minKey shift maxError tlen hsort hmaxlt i hi (by omega) acc h
    have h2 := ih (i + 1) (buildStep data minKey shift maxError acc i) (by omega) (by omega) h1
    have heq : i + (k + 1) = (i + 1) + k := by omega
    rw [heq]
    exact h2

theorem buildFinish_tInv (data : List Nat) (minKey shift tlen : Nat)
    (hsort : data.Pairwise (· ≤ ·))
    (hmaxlt : (data.getD (data.length - 1) 0 - minKey) >>> shift < tlen)
    (h3 : 3 ≤ data.length)
    (acc : BuildAcc) (h : TInv data minKey shift tlen data.length acc) :
    (buildFinish data minKey shift acc).2.length = tlen ∧
    TblInv (buildFinish data minKey shift acc).2
      ((data.getD (data.length - 1) 0 - minKey) >>> shift)
      ((buildFinish data minKey shift acc).1.length - 1) ∧
    (buildFinish data minKey shift acc).1.length = acc.points.length + 1 := by
  obtain ⟨li1, li2, lp, tlenEq, pts1, tbl⟩ := h
  have hps2 : 2 ≤ (acc.points ++
      [(⟨data.getD (data.length - 1) 0, data.length - 1⟩ : Point)]).length := by
    simp only [List.length_append, List.length_singleton]
    omega
  have htb : TblInv acc.table acc.lastPfx
      ((acc.points ++ [(⟨data.getD (data.length - 1) 0, data.length - 1⟩ : Point)]).length - 2) := by
    have hlen1 : (acc.points ++
        [(⟨data.getD (data.length - 1) 0, data.length - 1⟩ : Point)]).length - 2 =
        acc.points.length - 1 := by simp
    rw [hlen1]
    exact tbl
  have hmain := buildTable_slice_inv data minKey shift tlen hsort hmaxlt acc.table tlenEq
    acc.lastIndex data.length
    (acc.points ++ [(⟨data.getD (data.length - 1) 0, data.length - 1⟩ : Point)]).length
    acc.lastPfx li1 (by omega) (le_refl _) (by omega) hps2 lp htb
  unfold buildFinish
  dsimp only
  refine ⟨?_, ?_, ?_⟩
  · rw [buildTableGo_fst_length]
    exact tlenEq
  · rw [← hmain.2]
    exact hmain.1
  · simp

theorem mkIndex_points_spec (data : List Nat) (r e : Nat) (h3 : 3 ≤ data.length) :
    (mkIndex data r e).points.head? = some ⟨data.getD 0 0, 0⟩ ∧
    (mkIndex data r e).points.getLast? =
      some ⟨data.getD (data.length - 1) 0, data.length - 1⟩ ∧
    (∀ q ∈ (mkIndex data r e).points,
      q.key = data.getD q.position 0 ∧ q.position ≤ data.length - 1) ∧
    (mkIndex data r e).points.Chain' (fun a b => a.position < b.position) := by
  have hinit := ptsInv_init data
    ((data.getD (data.length - 1) 0 - data.getD 0 0) >>>
      getNumShiftBits (data.getD (data.length - 1) 0 - data.getD 0 0) r + 2) e
  have hfold := foldl_buildStep_ptsInv data (data.getD 0 0)
    (getNumShiftBits (data.getD (data.length - 1) 0 - data.getD 0 0) r) e
    (data.length - 2) 2 _ (le_refl 2) hinit
  rw [show 2 + (data.length - 2) = data.length from by omega] at hfold
  exact buildFinish_points_spec data (data.getD 0 0)
    (getNumShiftBits (data.getD (data.length - 1) 0 - data.getD 0 0) r) _ h3 hfold

theorem mkIndex_table_inv (data : List Nat) (r e : Nat)
    (hsort : data.Pairwise (· ≤ ·)) (h3 : 3 ≤ data.length) :
    (mkIndex data r e).table.length =
      ((data.getD (data.length - 1) 0 - data.getD 0 0) >>>
        getNumShiftBits (data.getD (data.length - 1) 0 - data.getD 0 0) r) + 2 ∧
    TblInv (mkIndex data r e).table
      ((data.getD (data.length - 1) 0 - data.getD 0 0) >>>
        getNumShiftBits (data.getD (data.length - 1) 0 - data.getD 0 0) r)
      ((mkIndex data r e).points.length - 1) ∧
    2 ≤ (mkIndex data r e).points.length := by
  have hinit := tInv_init data (data.getD 0 0)
    (getNumShiftBits (data.getD (data.length - 1) 0 - data.getD 0 0) r) e
    ((data.getD (data.length - 1) 0 - data.getD 0 0) >>>
      getNumShiftBits (data.getD (data.length - 1) 0 - data.getD 0 0) r + 2) rfl
  have hfold := foldl_buildStep_tInv data (data.getD 0 0)
    (getNumShiftBits (data.getD (data.length - 1) 0 - data.getD 0 0) r) e
    ((data.getD (data.length - 1) 0 - data.getD 0 0) >>>
      getNumShiftBits (data.getD (data.length - 1) 0 - data.getD 0 0) r + 2)
    hsort (by omega) (data.length - 2) 2 _ (le_refl 2) (by omega) hinit
  rw [show 2 + (data.length - 2) = data.length from by omega] at hfold
  have hfin := buildFinish_tInv data (data.getD 0 0)
    (getNumShiftBits (data.getD (data.length - 1) 0 - data.getD 0 0) r)
    ((data.getD (data.length - 1) 0 - data.getD 0 0) >>>
      getNumShiftBits (data.getD (data.length - 1) 0 - data.getD 0 0) r + 2)
    hsort (by omega) h3 _ hfold
  have hp1 : 1 ≤ ((List.range' 2 (data.length - 2)).foldl
      (buildStep data (data.getD 0 0)
        (getNumShiftBits (data.getD (data.length - 1) 0 - data.getD 0 0) r) e)
      (buildInit data
        ((data.getD (data.length - 1) 0 - data.getD 0 0) >>>
          getNumShiftBits (data.getD (data.length - 1) 0 - data.getD 0 0) r + 2) e)).points.length :=
    hfold.pts1
  exact ⟨hfin.1, hfin.2.1, le_of_le_of_eq (by omega) hfin.2.2.symm⟩

/-! ## Claim theorems -/

/-- C1: the claim states that for every valid input and every index i,
search(data[i]) returns Some(j) with data[j] = data[i].  The code violates
this: on the valid sorted input dataOverflow = [0, 2^62, 2^63, 3*2^62, 2^64-1]
with num_radix_bits = 2 and max_error = 1, the key data[2] = 2^63 is present,
yet search(2^63) returns None, because the interpolation multiplication
(2^63) * 4 is performed in plain 64-bit usize arithmetic and wraps to 0
(in a debug build it aborts with an overflow panic), so the refinement window
[0, 1] misses index 2.  This theorem evaluates the model at the failing
input. -/
theorem c1_code_bug :
    (dataOverflow.length = 5 ∧ List.Pairwise (· ≤ ·) dataOverflow ∧
      dataOverflow.getD 0 0 < dataOverflow.getD 4 0 ∧
      dataOverflow.getD 2 0 = 9223372036854775808) ∧
    searchIn dataOverflow 2 1 9223372036854775808 = SearchResult.notFound := by
  decide

/-- C2: the claim states |pred - i| <= max_error for every present key.  At
the failing input of C1 the enclosing spline segment is ((0,0), (2^64-1, 4)),
the true index of key 2^63 is 2, but the predicted position computed by
search is 0 (the usize product 2^63 * 4 wraps to 0), so pred + max_error = 1 <
2: the true index lies outside [pred - eps, pred + eps].  This theorem
evaluates the model at the failing input. -/
theorem c2_code_bug :
    (mkIndex dataOverflow 2 1).points = [⟨0, 0⟩, ⟨18446744073709551615, 4⟩] ∧
    (mkIndex dataOverflow 2 1).maxError = 1 ∧
    dataOverflow.getD 2 0 = 9223372036854775808 ∧
    predictedPos ⟨0, 0⟩ ⟨18446744073709551615, 4⟩ 9223372036854775808 = 0 ∧
    predictedPos ⟨0, 0⟩ ⟨18446744073709551615, 4⟩ 9223372036854775808 + 1 < 2 := by
  decide

/-- C3: the claim states that an absent in-range key yields None.  On the
valid input dataGap = [0,1,2,3,100] with num_radix_bits = 2 and max_error =
32, the absent in-range key 50 maps to a table slot holding the index of the
LAST spline point (the table's one-past-the-end sentinel of the reference
algorithm is never written), so search evaluates points[table[p] + 1] out of
bounds and panics instead of returning None.  This theorem evaluates the model
at the failing input. -/
theorem c3_code_bug :
    (dataGap.getD 0 0 ≤ 50 ∧ 50 ≤ dataGap.getD 4 0 ∧ 50 ∉ dataGap ∧
      List.Pairwise (· ≤ ·) dataGap) ∧
    searchIn dataGap 2 32 50 = SearchResult.fail := by
  decide

/-- C4: the claim states that out-of-range keys are rejected as not found.
The code has no range guard at all: for k = 100 > max_key = 20 on
dataP8a = [3,4,8,10,19,20] the radix prefix 97 indexes the 19-slot table out
of bounds (a panic); for k = 1 < min_key = 3 the subtraction k - min_key
wraps (debug: aborts) and the huge prefix again indexes out of bounds.  This
theorem evaluates the model at both failing inputs. -/
theorem c4_code_bug :
    (dataP8a.getD 0 0 = 3 ∧ dataP8a.getD 5 0 = 20) ∧
    searchIn dataP8a 18 1 100 = SearchResult.fail ∧
    searchIn dataP8a 18 1 1 = SearchResult.fail := by
  decide

/-- C5 counterexample: the claim states construction fails whenever
data.last() <= data.first() (degenerate range).  RadixSpline::new only
asserts data.len() >= 3: the degenerate input [5,5,5] is accepted and even
answers search(5) with Some(0). -/
theorem c5_counterexample :
    (([5, 5, 5] : List Nat).length = 3 ∧
      ([5, 5, 5] : List Nat).getD 2 0 ≤ ([5, 5, 5] : List Nat).getD 0 0) ∧
    (RadixSpline.new [5, 5, 5] 18 32).isSome = true ∧
    searchIn [5, 5, 5] 18 32 5 = SearchResult.found 0 := by
  decide

/-- C5 amended: RadixSpline::new aborts construction exactly for the length
precondition it asserts: every input with data.len() < 3 is rejected; the
degenerate-range and sortedness conditions are not checked (see the
counterexample). -/
theorem c5_amended (data : List Nat) (r e : Nat) (h : data.length < 3) :
    RadixSpline.new data r e = none := by
  rw [RadixSpline.new, if_pos h]

theorem c5_amended_witness :
    ([5, 5] : List Nat).length < 3 ∧ RadixSpline.new [5, 5] 18 32 = none :=
  ⟨by decide, c5_amended [5, 5] 18 32 (by decide)⟩

/-- C6 counterexample: the claim states the spline keys are strictly
increasing.  On the valid sorted input dataDupMax = [0,1,2,2,2,2] with
max_error = 1 the build emits points (0,0), (2,3), (2,5): the duplicated
maximum key appears twice, so strict increase of keys fails. -/
theorem c6_counterexample :
    (List.Pairwise (· ≤ ·) dataDupMax ∧ 3 ≤ dataDupMax.length ∧
      dataDupMax.getD 0 0 < dataDupMax.getD 5 0) ∧
    (mkIndex dataDupMax 18 1).points = [⟨0, 0⟩, ⟨2, 3⟩, ⟨2, 5⟩] ∧
    ¬ List.Pairwise (fun a b => a < b) ((mkIndex dataDupMax 18 1).points.map Point.key) := by
  decide

/-- C6 amended: for every valid build the spline-point list starts with
(data[0], 0), ends with (data[n-1], n-1), its positions are strictly
increasing, and its keys are non-decreasing (strictly increasing only fails
at duplicated keys, see the counterexample). -/
theorem c6_amended (data : List Nat) (r e : Nat)
    (hsort : data.Pairwise (· ≤ ·)) (h3 : 3 ≤ data.length) :
    (mkIndex data r e).points.head? = some ⟨data.getD 0 0, 0⟩ ∧
    (mkIndex data r e).points.getLast? =
      some ⟨data.getD (data.length - 1) 0, data.length - 1⟩ ∧
    (mkIndex data r e).points.Chain' (fun a b => a.key ≤ b.key) ∧
    (mkIndex data r e).points.Chain' (fun a b => a.position < b.position) := by
  obtain ⟨h1, h2, hm, h4⟩ := mkIndex_points_spec data r e h3
  refine ⟨h1, h2, ?_, h4⟩
  exact chain'_key_of_pos data hsort _
    (fun q hq => ⟨(hm q hq).1, by have := (hm q hq).2; omega⟩) h4

theorem c6_amended_witness :
    (List.Pairwise (· ≤ ·) dataP8a ∧ 3 ≤ dataP8a.length) ∧
    ((mkIndex dataP8a 18 1).points.head? = some ⟨dataP8a.getD 0 0, 0⟩ ∧
      (mkIndex dataP8a 18 1).points.getLast? =
        some ⟨dataP8a.getD (dataP8a.length - 1) 0, dataP8a.length - 1⟩ ∧
      (mkIndex dataP8a 18 1).points.Chain' (fun a b => a.key ≤ b.key) ∧
      (mkIndex dataP8a 18 1).points.Chain' (fun a b => a.position < b.position)) :=
  ⟨⟨by decide, by decide⟩, c6_amended dataP8a 18 1 (by decide) (by decide)⟩

/-- C7 counterexample: the claim states the table is non-decreasing from T[0]
to its last entry and that tail entries above max_prefix hold the sentinel
|S|.  On dataP8a with num_radix_bits = 18 the built table of length 19 ends
..., T[17] = 2, T[18] = 0: the final slot is never written (it keeps its
initial 0, not the sentinel 3 = |S|), so the table is not non-decreasing up
to its last entry. -/
theorem c7_counterexample :
    (List.Pairwise (· ≤ ·) dataP8a ∧ 3 ≤ dataP8a.length) ∧
    (mkIndex dataP8a 18 1).table.length = 19 ∧
    (mkIndex dataP8a 18 1).points.length = 3 ∧
    tget (mkIndex dataP8a 18 1).table 17 = 2 ∧
    tget (mkIndex dataP8a 18 1).table 18 = 0 ∧
    ¬ (tget (mkIndex dataP8a 18 1).table 17 ≤ tget (mkIndex dataP8a 18 1).table 18) := by
  decide

/-- C7 amended: for every valid build the table has length max_prefix + 2, is
non-decreasing on slots 0..max_prefix, every entry is a strictly valid index
into the spline-point list (the sentinel |S| is never stored), and the final
slot T[max_prefix + 1] keeps its initial value 0 (so monotonicity stops at
max_prefix, see the counterexample). -/
theorem c7_amended (data : List Nat) (r e : Nat)
    (hsort : data.Pairwise (· ≤ ·)) (h3 : 3 ≤ data.length) :
    (mkIndex data r e).table.length =
      ((data.getD (data.length - 1) 0 - data.getD 0 0) >>>
        getNumShiftBits (data.getD (data.length - 1) 0 - data.getD 0 0) r) + 2 ∧
    (∀ a b, a ≤ b → b + 2 ≤ (mkIndex data r e).table.length →
      tget (mkIndex data r e).table a ≤ tget (mkIndex data r e).table b) ∧
    (∀ j, tget (mkIndex data r e).table j < (mkIndex data r e).points.length) ∧
    tget (mkIndex data r e).table ((mkIndex data r e).table.length - 1) = 0 := by
  obtain ⟨hlen, htbl, hpts⟩ := mkIndex_table_inv data r e hsort h3
  refine ⟨hlen, ?_, ?_, ?_⟩
  · intro a b hab hb
    rw [hlen] at hb
    exact htbl.mono a b hab (by omega)
  · intro j
    rcases le_or_lt j ((data.getD (data.length - 1) 0 - data.getD 0 0) >>>
        getNumShiftBits (data.getD (data.length - 1) 0 - data.getD 0 0) r) with h | h
    · exact lt_of_le_of_lt (htbl.bnd j h) (by omega)
    · rw [htbl.tail j h]
      omega
  · rw [hlen]
    exact htbl.tail _ (by omega)

theorem c7_amended_witness :
    (List.Pairwise (· ≤ ·) dataP8a ∧ 3 ≤ dataP8a.length) ∧
    ((mkIndex dataP8a 18 1).table.length =
      ((dataP8a.getD (dataP8a.length - 1) 0 - dataP8a.getD 0 0) >>>
        getNumShiftBits (dataP8a.getD (dataP8a.length - 1) 0 - dataP8a.getD 0 0) 18) + 2 ∧
    (∀ a b, a ≤ b → b + 2 ≤ (mkIndex dataP8a 18 1).table.length →
      tget (mkIndex dataP8a 18 1).table a ≤ tget (mkIndex dataP8a 18 1).table b) ∧
    (∀ j, tget (mkIndex dataP8a 18 1).table j < (mkIndex dataP8a 18 1).points.length) ∧
    tget (mkIndex dataP8a 18 1).table ((mkIndex dataP8a 18 1).table.length - 1) = 0) :=
  ⟨⟨by decide, by decide⟩, c7_amended dataP8a 18 1 (by decide) (by decide)⟩

/-- C8 counterexample: the claim states the predicted position equals the
exact widening-multiplication formula.  On the segment ((0,0), (2^64-1, 4))
produced by the build on dataOverflow, for key 2^63 the source's usize
arithmetic yields 0 while the exact (128-bit) formula yields 2. -/
theorem c8_counterexample :
    (mkIndex dataOverflow 2 1).points = [⟨0, 0⟩, ⟨18446744073709551615, 4⟩] ∧
    predictedPos ⟨0, 0⟩ ⟨18446744073709551615, 4⟩ 9223372036854775808 = 0 ∧
    specPredicted ⟨0, 0⟩ ⟨18446744073709551615, 4⟩ 9223372036854775808 = 2 ∧
    ¬ (predictedPos ⟨0, 0⟩ ⟨18446744073709551615, 4⟩ 9223372036854775808 =
      specPredicted ⟨0, 0⟩ ⟨18446744073709551615, 4⟩ 9223372036854775808) := by
  decide

/-- C8 amended: search computes the interpolation in plain 64-bit usize
arithmetic (no widening); it agrees with the exact integer formula of the
specification exactly when the product (k - start.key) * (end.position -
start.position) stays below 2^64 (and the segment is well-formed: start.key
<= k <= end.key, start.key < end.key, start.position <= end.position, with
u64/usize-ranged values). -/
theorem c8_amended (s e : Point) (k : Nat)
    (hsk : s.key ≤ k) (hke : k ≤ e.key) (hkey : s.key < e.key) (heK : e.key < W64)
    (hpos : s.position ≤ e.position) (hposW : e.position < W64)
    (hof : (k - s.key) * (e.position - s.position) < W64) :
    predictedPos s e k = specPredicted s e k := by
  have hkW : k < W64 := lt_of_le_of_lt hke heK
  have hd : 0 < e.key - s.key := by omega
  have hq : (k - s.key) * (e.position - s.position) / (e.key - s.key) ≤
      e.position - s.position := by
    calc (k - s.key) * (e.position - s.position) / (e.key - s.key)
        ≤ (e.key - s.key) * (e.position - s.position) / (e.key - s.key) :=
          Nat.div_le_div_right (Nat.mul_le_mul_right _ (by omega))
      _ = e.position - s.position := Nat.mul_div_cancel_left _ hd
  simp only [predictedPos, specPredicted]
  rw [wsub_of_le hsk hkW, wsub_of_le hpos hposW, wsub_of_le (le_of_lt hkey) heK,
    Nat.mod_eq_of_lt hof, wadd_of_lt (by omega)]

theorem c8_amended_witness :
    ((⟨10, 3⟩ : Point).key ≤ 18 ∧ 18 ≤ (⟨20, 5⟩ : Point).key ∧
      (⟨10, 3⟩ : Point).key < (⟨20, 5⟩ : Point).key ∧ (⟨20, 5⟩ : Point).key < W64 ∧
      (⟨10, 3⟩ : Point).position ≤ (⟨20, 5⟩ : Point).position ∧
      (⟨20, 5⟩ : Point).position < W64 ∧
      (18 - (⟨10, 3⟩ : Point).key) *
        ((⟨20, 5⟩ : Point).position - (⟨10, 3⟩ : Point).position) < W64) ∧
    predictedPos ⟨10, 3⟩ ⟨20, 5⟩ 18 = specPredicted ⟨10, 3⟩ ⟨20, 5⟩ 18 :=
  ⟨⟨by decide, by decide, by decide, by decide, by decide, by decide, by decide⟩,
    c8_amended ⟨10, 3⟩ ⟨20, 5⟩ 18 (by decide) (by decide) (by decide) (by decide)
      (by decide) (by decide) (by decide)⟩

/-- C9 counterexample: the claim states that on [3,4,8,8,10,10,19,20] with
max_error = 1 the emitted spline points are exactly [(3,0),(10,5),(20,7)].
The build actually emits (10,4) — the corridor violation at step i = 5 emits
the point at position i - 1 = 4.  (The repository's own test passes only
because Rust Point equality compares keys alone.) -/
theorem c9_counterexample :
    ¬ (splinePoints dataP8b 1 = [⟨3, 0⟩, ⟨10, 5⟩, ⟨20, 7⟩]) := by
  decide

/-- C9 amended: on [3,4,8,10,19,20] with max_error = 1 the corridor emits
exactly [(3,0),(10,3),(20,5)] (as claimed); on [3,4,8,8,10,10,19,20] it emits
exactly [(3,0),(10,4),(20,7)] — same keys as the claim, but the middle point
carries position 4, not 5.  The fused build of radix_spline.rs emits the same
lists. -/
theorem c9_amended :
    splinePoints dataP8a 1 = [⟨3, 0⟩, ⟨10, 3⟩, ⟨20, 5⟩] ∧
    splinePoints dataP8b 1 = [⟨3, 0⟩, ⟨10, 4⟩, ⟨20, 7⟩] ∧
    (mkIndex dataP8a 18 1).points = [⟨3, 0⟩, ⟨10, 3⟩, ⟨20, 5⟩] ∧
    (mkIndex dataP8b 18 1).points = [⟨3, 0⟩, ⟨10, 4⟩, ⟨20, 7⟩] ∧
    (splinePoints dataP8b 1).map Point.key = [3, 10, 20] := by
  decide

/-- C10: for every valid build and every in-range key k, the radix prefix
computed by search satisfies c_prefix + 2 <= table.len() (so the table read
and the end-bound slot exist), and the table entry is strictly below
points.len(): the `start` spline-point lookup of search is in bounds. -/
theorem c10_start_inbounds (data : List Nat) (r e k : Nat)
    (hsort : data.Pairwise (· ≤ ·)) (h3 : 3 ≤ data.length) (hkW : k < W64)
    (hlo : data.getD 0 0 ≤ k) (hhi : k ≤ data.getD (data.length - 1) 0) :
    (wsub k (mkIndex data r e).minKey >>> (mkIndex data r e).shiftRadixBits) + 2 ≤
      (mkIndex data r e).table.length ∧
    tget (mkIndex data r e).table
      (wsub k (mkIndex data r e).minKey >>> (mkIndex data r e).shiftRadixBits) <
      (mkIndex data r e).points.length := by
  obtain ⟨hlen, htbl, hpts⟩ := mkIndex_table_inv data r e hsort h3
  have hminKey : (mkIndex data r e).minKey = data.getD 0 0 := rfl
  have hshift : (mkIndex data r e).shiftRadixBits =
      getNumShiftBits (data.getD (data.length - 1) 0 - data.getD 0 0) r := rfl
  rw [hminKey, hshift, wsub_of_le hlo hkW]
  have hcp : (k - data.getD 0 0) >>>
      getNumShiftBits (data.getD (data.length - 1) 0 - data.getD 0 0) r ≤
      (data.getD (data.length - 1) 0 - data.getD 0 0) >>>
      getNumShiftBits (data.getD (data.length - 1) 0 - data.getD 0 0) r :=
    pfx_mono _ _ hhi
  constructor
  · rw [hlen]
    omega
  · exact lt_of_le_of_lt (htbl.bnd _ hcp) (by omega)

theorem c10_start_inbounds_witness :
    (List.Pairwise (· ≤ ·) dataP8a ∧ 3 ≤ dataP8a.length ∧ 10 < W64 ∧
      dataP8a.getD 0 0 ≤ 10 ∧ 10 ≤ dataP8a.getD (dataP8a.length - 1) 0) ∧
    ((wsub 10 (mkIndex dataP8a 18 1).minKey >>> (mkIndex dataP8a 18 1).shiftRadixBits) + 2 ≤
      (mkIndex dataP8a 18 1).table.length ∧
    tget (mkIndex dataP8a 18 1).table
      (wsub 10 (mkIndex dataP8a 18 1).minKey >>> (mkIndex dataP8a 18 1).shiftRadixBits) <
      (mkIndex dataP8a 18 1).points.length) :=
  ⟨⟨by decide, by decide, by decide, by decide, by decide⟩,
    c10_start_inbounds dataP8a 18 1 10 (by decide) (by decide) (by decide) (by decide)
      (by decide)⟩

end RS
